import Mathlib

/-!
Shallow embedding of the aggregation orchestration engine of the `drain`
repository (src/aggregation.py) together with the model-subset helper
`y_subset` of src/model.py, and proofs of the spec's claims about them.

Conventions of the embedding:
* Python dictionaries of argument names to values become association lists
  over `String`; the value types that actually flow through the engine
  (index names, dates, delta strings) are modelled as string atoms, so the
  source's `str(v)` is the identity on them.
* pandas data frames are modelled by `DF`: a (possibly multi-level) row
  index with named levels plus named data columns; a missing value (NaN)
  is `Option.none`.
* Fallible paths return `Except PyErr`; a raised exception that no caller
  catches is the `.error` value of the whole computation.
-/

namespace Drain

/-- An argument record of the engine (one aggregation unit): a Python dict
from argument name to value, modelled as an association list. -/
abbrev Arg := List (String × String)

/-- Lookup in an association list (Python dict access). -/
def alookup [DecidableEq κ] (k : κ) : List (κ × α) → Option α
  | [] => none
  | p :: rest => if p.1 = k then some p.2 else alookup k rest

/-- Value of `argument[k]`; the code only reads keys that are present, the
default is never reached on the paths the source exercises. -/
def argGet (a : Arg) (k : String) : String :=
  match alookup k a with
  | some v => v
  | none => ""

/-- `util.dict_subset(kwargs, keys)`: the projection of an argument record
onto a list of argument names. -/
def dict_subset (a : Arg) (ks : List String) : Arg :=
  ks.map (fun k => (k, argGet a k))

/-- One row of a data frame: the values of its index levels and the values
of its data columns (`none` is NaN). -/
structure Row where
  key : List String
  vals : List (Option String)
deriving DecidableEq

/-- A pandas data frame: named index levels, named data columns, rows. -/
structure DF where
  indexNames : List String
  columns : List String
  rows : List Row
deriving DecidableEq

/-- The Python exceptions the claims mention. -/
inductive PyErr where
  | notImplementedError : PyErr
  | valueError : String → PyErr
  | configurationError : String → PyErr
deriving DecidableEq

/-- `SpacetimeAggregation.arguments` (src/aggregation.py lines 172-180):
date in the outer loop, spacedelta name in the middle, delta in the inner,
one record `{date, delta, index: name}` per combination.  `spacedeltas` is
the dict `{name: (index, deltas)}`, modelled as an association list. -/
def spacetimeArguments (dates : List String)
    (spacedeltas : List (String × String × List String)) : List Arg :=
  dates.flatMap (fun date =>
    spacedeltas.flatMap (fun nd =>
      nd.2.2.map (fun delta =>
        [("date", date), ("delta", delta), ("index", nd.1)])))

/-- `SimpleAggregation.arguments` (lines 141-143): one unit per index name. -/
def simpleArguments (indexes : List String) : List Arg :=
  indexes.map (fun name => [("index", name)])

/-- The cartesian product of dates with the (name, delta) pairs declared by
the spacedeltas, in declared outer-to-inner order; used to compare the
source's enumeration with the spec's product description. -/
def spacetimeProductSpace (dates : List String)
    (spacedeltas : List (String × String × List String)) :
    List (String × String × String) :=
  dates.flatMap (fun date =>
    (spacedeltas.flatMap (fun nd => nd.2.2.map (fun delta => (nd.1, delta)))).map
      (fun p => (date, p.1, p.2)))

/-- An aggregator handle, as seen through the engine: `builtFrom` is the
projection of the constructing unit onto `aggregator_args` (the arguments
of `get_aggregator`), and `serial` numbers the construction so that two
handles built by distinct constructor calls are distinguishable. -/
structure Aggregator where
  serial : Nat
  builtFrom : Arg
deriving DecidableEq

/-- The state behind `AggregationBase._get_aggregator`: `self._aggregators`
plus a counter modelling Python object identity.  The source computes the
cache key as `args_tuple = (kwargs[k] for k in self.aggregator_args)` — a
GENERATOR EXPRESSION, not a tuple — and generator objects hash and compare
by identity, so each call probes the dict with a freshly created object.
`genCounter` allocates those fresh identities: the key a call uses is its
own `genCounter` value, and the keys stored earlier are the (strictly
smaller) values of earlier calls. -/
structure CacheState where
  cache : List (Nat × Aggregator)
  genCounter : Nat
deriving DecidableEq

/-- The empty `self._aggregators = {}` of a freshly constructed instance. -/
def initCache : CacheState := { cache := [], genCounter := 0 }

/-- One non-parallel aggregation instance, as far as `run` is concerned.
`indexes` is the index registry (`self.indexes`), `hookImplemented` says
whether the subclass overrode the abstract aggregator-construction hook
(`get_aggregator`, and for `SpacetimeAggregation` the `get_aggregates` it
calls): the base implementations raise `NotImplementedError`.
`aggregateFn` is the external aggregation collaborator: given the
projection the handle was built from and an index, it returns the partial
result frame `aggregator.aggregate(index)`. -/
structure Engine where
  arguments : List Arg
  aggregator_args : List String
  concat_args : List String
  insert_args : List String
  indexes : String → String
  hookImplemented : Bool
  aggregateFn : Arg → String → DF

/-- `AggregationBase._get_aggregator` (lines 99-107).  The membership test
`args_tuple in self._aggregators` probes the dict with this call's fresh
generator object (`st.genCounter`); on a miss the subclass hook
`self.get_aggregator(**util.dict_subset(kwargs, self.aggregator_args))`
constructs a handle (raising `NotImplementedError` when not overridden,
lines 109-115 and 197-198) and the handle is stored under the same fresh
key. -/
def getAggregatorMemo (e : Engine) (st : CacheState) (arg : Arg) :
    Except PyErr (Aggregator × CacheState) :=
  let gid := st.genCounter
  match alookup gid st.cache with
  | some a => .ok (a, { st with genCounter := gid + 1 })
  | none =>
    if e.hookImplemented then
      let a : Aggregator := { serial := gid, builtFrom := dict_subset arg e.aggregator_args }
      .ok (a, { cache := st.cache ++ [(gid, a)], genCounter := gid + 1 })
    else
      .error .notImplementedError

/-- Lines 78-82 of `run`: `df[k] = argument[k]` for every insert-arg key of
the unit, then `df.set_index(self.insert_args, append=True, inplace=True)`:
the insert-arg values become additional index levels appended after the
existing ones, in `insert_args` order; columns and existing levels are
untouched. -/
def applyInsert (ins : List String) (arg : Arg) (df : DF) : DF :=
  { indexNames := df.indexNames ++ ins,
    columns := df.columns,
    rows := df.rows.map (fun r =>
      { r with key := r.key ++ ins.map (fun k => argGet arg k) }) }

/-- One iteration of the unit loop of `AggregationBase.run` (lines 74-83):
fetch the (memoized) aggregator, apply it to the unit's registered index,
append the insert-args as index levels. -/
def runUnit (e : Engine) (st : CacheState) (arg : Arg) :
    Except PyErr (DF × CacheState) := do
  let (agr, st1) ← getAggregatorMemo e st arg
  let df := e.aggregateFn agr.builtFrom (e.indexes (argGet arg ("index")))
  .ok (applyInsert e.insert_args arg df, st1)

/-- The unit loop of `run` over a list of units, threading the cache. -/
def runUnits (e : Engine) : List Arg → CacheState →
    Except PyErr (List DF × CacheState)
  | [], st => .ok ([], st)
  | a :: rest, st => do
    let (df, st1) ← runUnit e st a
    let (dfs, st2) ← runUnits e rest st1
    .ok (df :: dfs, st2)

/-- `AggregationBase.concat_args_prefix` (lines 48-53): the ConcatKey of a
unit, the stringified values of its `concat_args` fields joined by `_`. -/
def concatKeyOf (cargs : List String) (arg : Arg) : String :=
  String.intercalate ("_") (cargs.map (fun k => argGet arg k))

/-- Place one keyed frame into the bucket of its key: an existing bucket is
extended at its end, a new key opens a new bucket at the end of the dict
(Python dict insertion order), mirroring lines 89-93. -/
def insertBucket (acc : List (String × List DF)) (k : String) (d : DF) :
    List (String × List DF) :=
  match acc with
  | [] => [(k, [d])]
  | (k1, ds) :: rest =>
    if k1 = k then (k1, ds ++ [d]) :: rest
    else (k1, ds) :: insertBucket rest k d

/-- The `to_concat` dict of lines 85-93: every unit's frame, in unit order,
goes into the bucket of the unit's concat-args key. -/
def buildBuckets (pairs : List (String × DF)) : List (String × List DF) :=
  pairs.foldl (fun acc p => insertBucket acc p.1 p.2) []

/-- `pd.concat` on the frames of one bucket: row-stack in order, schema of
the first member (the source's buckets are never empty and their members
share one schema in every run the engine itself produces). -/
def pdConcat (dfs : List DF) : DF :=
  match dfs with
  | [] => { indexNames := [], columns := [], rows := [] }
  | d :: ds =>
    { indexNames := d.indexNames, columns := d.columns,
      rows := (d :: ds).flatMap (fun x => x.rows) }

/-- The frames, in unit order, of the units whose concat key is `k`. -/
def selectKey (k : String) (pairs : List (String × DF)) : List DF :=
  pairs.filterMap (fun p => if p.1 = k then some p.2 else none)

/-- `AggregationBase.run` on a non-parallel instance (lines 71-97): run all
units, then if `concat` group the frames by concat key and stack each
bucket (`.inl`), otherwise return the plain list of frames (`.inr`). -/
def runStep (e : Engine) (concat : Bool) :
    Except PyErr (Sum (List (String × DF)) (List DF)) := do
  let (dfs, _) ← runUnits e e.arguments initCache
  if concat then
    .ok (.inl ((buildBuckets ((e.arguments.map (concatKeyOf e.concat_args)).zip dfs)).map
      (fun p => (p.1, pdConcat p.2))))
  else
    .ok (.inr dfs)

/-- The number of aggregators `run` constructs on a non-parallel instance
(observed as the size of `self._aggregators` after the unit loop). -/
def constructionsOf (e : Engine) : Option Nat :=
  match runUnits e e.arguments initCache with
  | .ok (_, st) => some st.cache.length
  | .error _ => none

/-- The final content of `self._aggregators` after the unit loop. -/
def cacheOf (e : Engine) : Option (List (Nat × Aggregator)) :=
  match runUnits e e.arguments initCache with
  | .ok (_, st) => some st.cache
  | .error _ => none

/-- The number of distinct aggregator-args value projections of the units. -/
def distinctAggTuples (e : Engine) : Nat :=
  ((e.arguments.map (fun a => dict_subset a e.aggregator_args)).dedup).length

/-- A SimpleAggregation-style instance (lines 123-128: `aggregator_args = []`,
`concat_args = ['index']`, no insert-args) over the two indexes A and B:
both units project onto the same, empty, aggregator-args tuple. -/
def engineC1 : Engine :=
  { arguments := [[("index", "A")], [("index", "B")]],
    aggregator_args := [],
    concat_args := [("index")],
    insert_args := [],
    indexes := fun n => n,
    hookImplemented := true,
    aggregateFn := fun _ ix =>
      { indexNames := [ix], columns := [("count")],
        rows := [{ key := [ix], vals := [some ("1")] }] } }

/-- An instance whose subclass did not override the abstract hook: the base
`AggregationBase.get_aggregator` (lines 109-115) — and for
`SpacetimeAggregation` the `get_aggregates` it calls (lines 197-198) —
raises `NotImplementedError`. -/
def engineC8 : Engine :=
  { arguments := [[("index", "A")]],
    aggregator_args := [],
    concat_args := [("index")],
    insert_args := [],
    indexes := fun n => n,
    hookImplemented := false,
    aggregateFn := fun _ _ => { indexNames := [], columns := [], rows := [] } }

/-- The per-unit partial frames of a successful run (empty on failure). -/
def dfsOf (e : Engine) : List DF :=
  match runUnits e e.arguments initCache with
  | .ok (dfs, _) => dfs
  | .error _ => []

/-- The cache state after a successful run (initial on failure). -/
def stOf (e : Engine) : CacheState :=
  match runUnits e e.arguments initCache with
  | .ok (_, st) => st
  | .error _ => initCache

/-- A SpacetimeAggregation-style instance with three units, two of which
share the concat key A_12h while the third has key B_24h (default
`concat_args = ['index', 'delta']`, `insert_args = ['date']`). -/
def engineC3 : Engine :=
  { arguments :=
      [[("date", "2015-12-30"), ("delta", "12h"), ("index", "A")],
       [("date", "2015-12-31"), ("delta", "12h"), ("index", "A")],
       [("date", "2015-12-30"), ("delta", "24h"), ("index", "B")]],
    aggregator_args := [("date"), ("delta")],
    concat_args := [("index"), ("delta")],
    insert_args := [("date")],
    indexes := fun n => n,
    hookImplemented := true,
    aggregateFn := fun _ ix =>
      { indexNames := [ix], columns := [("count")],
        rows := [{ key := [("r1")], vals := [some ("1")] }] } }

/-- The frame produced for one unit by the loop body (junk on failure). -/
def runUnitDF (e : Engine) (st : CacheState) (arg : Arg) : DF :=
  match runUnit e st arg with
  | .ok (df, _) => df
  | .error _ => { indexNames := [], columns := [], rows := [] }

/-- The cache state after one unit of the loop (unchanged on failure). -/
def runUnitSt (e : Engine) (st : CacheState) (arg : Arg) : CacheState :=
  match runUnit e st arg with
  | .ok (_, st1) => st1
  | .error _ => st

/-- The first unit of `engineC3`. -/
def argC6 : Arg := [("date", "2015-12-30"), ("delta", "12h"), ("index", "A")]

/-- The constructor-relevant configuration of one `SpacetimeAggregation`
instance: the upstream inputs (opaque identifiers), the spacedeltas
mapping, the dates, the flags, and the instance's own private
`_aggregators` cache (`self._aggregators = {}`, line 33). -/
structure SpacetimeInst where
  inputs : List Nat
  spacedeltas : List (String × String × List String)
  dates : List String
  parallel : Bool
  concat : Bool
  cache : CacheState
deriving DecidableEq

/-- The constructor-relevant configuration of one `SimpleAggregation`
instance. -/
structure SimpleInst where
  inputs : List Nat
  indexes : List String
  parallel : Bool
  concat : Bool
  cache : CacheState
deriving DecidableEq

/-- `SpacetimeAggregation.parallel_kwargs` (lines 182-184): one descriptor
per date — the same spacedeltas, the date list narrowed to a singleton. -/
def spacetimeParallelKwargs
    (spacedeltas : List (String × String × List String))
    (dates : List String) :
    List (List (String × String × List String) × List String) :=
  dates.map (fun date => (spacedeltas, [date]))

/-- `SimpleAggregation.parallel_kwargs` (lines 137-139): one descriptor per
index, narrowed to that singleton index. -/
def simpleParallelKwargs (indexes : List String) : List (List String) :=
  indexes.map (fun index => [index])

/-- `AggregationBase.__init__` (lines 13-33) as entered through
`SpacetimeAggregation`: when `parallel` is set, the constructor builds one
non-parallel instance of the same concrete class per `parallel_kwargs`
descriptor, passing it the same upstream `inputs`, and those sub-instances
replace the parent's inputs (returned here as the second component); each
constructed instance gets its own fresh, empty `_aggregators` cache. -/
def mkSpacetime (inputs : List Nat)
    (spacedeltas : List (String × String × List String))
    (dates : List String) (parallel concat : Bool) :
    SpacetimeInst × List SpacetimeInst :=
  ({ inputs := inputs, spacedeltas := spacedeltas, dates := dates,
     parallel := parallel, concat := concat, cache := initCache },
   if parallel then
     (spacetimeParallelKwargs spacedeltas dates).map (fun kw =>
       { inputs := inputs, spacedeltas := kw.1, dates := kw.2,
         parallel := false, concat := concat, cache := initCache })
   else [])

/-- `AggregationBase.__init__` as entered through `SimpleAggregation`. -/
def mkSimple (inputs : List Nat) (indexes : List String)
    (parallel concat : Bool) : SimpleInst × List SimpleInst :=
  ({ inputs := inputs, indexes := indexes,
     parallel := parallel, concat := concat, cache := initCache },
   if parallel then
     (simpleParallelKwargs indexes).map (fun kw =>
       { inputs := inputs, indexes := kw,
         parallel := false, concat := concat, cache := initCache })
   else [])

/-- The external scheduling runtime executes the partitioned sub-instances
independently: one `runUnits` execution per partition, each on that
instance's own engine and starting from that instance's own empty private
cache. -/
def runPartitions (es : List Engine) :
    List (Except PyErr (List DF × CacheState)) :=
  es.map (fun e => runUnits e e.arguments initCache)

/-- Modelled from the spec: the fan-in merge of the step runtime
(drain/step.py, which is not among the staged sources) collects the
partitioned sub-instances' grouped results into one keyword mapping, which
`AggregationBase.run` (lines 64-67) returns unchanged when `parallel` and
`concat` are set.  Spec 4.3: "If grouping is enabled: merge the
sub-instances' AggregationResult mappings by key union.  Overlapping
ConcatKeys across sub-instances are a configuration error ... and should
be rejected, not silently overwritten."  `mergeNoOverlap` folds one
sub-result into the accumulated mapping, rejecting an already-present
key. -/
def mergeNoOverlap : List (String × DF) → List (String × DF) →
    Except PyErr (List (String × DF))
  | acc, [] => .ok acc
  | acc, (k, df) :: rest =>
    if (alookup k acc).isSome then
      .error (.configurationError ("overlapping ConcatKey: " ++ k))
    else mergeNoOverlap (acc ++ [(k, df)]) rest

/-- Modelled from the spec (see `mergeNoOverlap`): key union of the
sub-instances' result mappings, in sub-instance order. -/
def faninConcat (results : List (List (String × DF))) :
    Except PyErr (List (String × DF)) :=
  results.foldlM (fun acc m => mergeNoOverlap acc m) []

/-- Modelled from the spec: `drain.data.prefix_columns(df, prefix)`
(drain/data.py is not among the staged sources).  `join` (lines 55-62)
calls it for its side effect only — its return value is ignored — and the
spec (4.5) requires every column of the group's frame to carry the
`'<ConcatKey>_'` prefix in the joined output, so `prefix_columns` must
rename the columns of the frame held in the result mapping in place; the
mutation is modelled by returning the renamed frame and threading it back
into the stored mapping (see `joinLoop`). -/
def prefix_columns (df : DF) (pfx : String) : DF :=
  { df with columns := df.columns.map (fun c => pfx ++ c) }

/-- Value of the column named `c` in a row whose values align with `cols`
(`none` both for a NaN cell and for an absent column). -/
def rowCol (cols : List String) (r : Row) (c : String) : Option String :=
  match alookup c (cols.zip r.vals) with
  | some v => v
  | none => none

/-- `left.merge(df, left_on=df.index.names, right_index=True, how='left')`
(line 61): the external pandas collaborator, modelled by its relational
left-join semantics: each left row, in order, pairs with every right row
whose full index key equals the left row's values at the columns named by
the right frame's index levels (a NaN left value matches nothing); a left
row without a match yields exactly one output row padded with missing
values for the right frame's columns. -/
def mergeLeft (left right : DF) : DF :=
  { indexNames := left.indexNames,
    columns := left.columns ++ right.columns,
    rows := left.rows.flatMap (fun l =>
      match right.rows.filter (fun r =>
          r.key.map Option.some
            = right.indexNames.map (fun n => rowCol left.columns l n)) with
      | [] => [{ l with vals := l.vals ++ right.columns.map (fun _ => none) }]
      | ms => ms.map (fun r => { l with vals := l.vals ++ r.vals })) }

/-- `AggregationBase.join` (lines 55-62): iterate over the stored result
mapping; each group's frame is prefixed in place inside the mapping and
left-merged into the accumulating table.  Returns the joined table
together with the mapping as the loop leaves it behind (the frames held by
`self.get_result()` keep the renamed columns). -/
def joinLoop (left : DF) : List (String × DF) → DF × List (String × DF)
  | [] => (left, [])
  | (k, df) :: rest =>
    let df1 := prefix_columns df (k ++ "_")
    let next := joinLoop (mergeLeft left df1) rest
    (next.1, (k, df1) :: next.2)

/-- The extension of one left row by one right frame: the values of the
right row whose key matches, or missing values when none does. -/
def extendRow (cols : List String) (right : DF) (l : Row) : Row :=
  match right.rows.find? (fun r =>
      r.key.map Option.some
        = right.indexNames.map (fun n => rowCol cols l n)) with
  | some r => { l with vals := l.vals ++ r.vals }
  | none => { l with vals := l.vals ++ right.columns.map (fun _ => none) }

/-- The cumulative extension of one left row across all groups, each group
prefixed by its key, in mapping order. -/
def joinExtend (cols : List String) : List (String × DF) → Row → Row
  | [], l => l
  | (k, df) :: rest, l =>
    joinExtend (cols ++ (prefix_columns df (k ++ "_")).columns) rest
      (extendRow cols (prefix_columns df (k ++ "_")) l)

/-- The joined table's columns: the left columns followed by one block of
prefixed columns per group, in mapping order. -/
def joinCols (cols : List String) : List (String × DF) → List String
  | [] => cols
  | (k, df) :: rest =>
    joinCols (cols ++ (prefix_columns df (k ++ "_")).columns) rest

/-- A SpacetimeAggregation-style instance whose `concat_args` were narrowed
to `['index']` (the constructor accepts custom concat_args, line 155), so
its two units — same date, deltas 12h and 24h — share the ConcatKey A and
their identically-keyed output rows are stacked into one group. -/
def engineC4 : Engine :=
  { arguments :=
      [[("date", "d1"), ("delta", "12h"), ("index", "A")],
       [("date", "d1"), ("delta", "24h"), ("index", "A")]],
    aggregator_args := [("date"), ("delta")],
    concat_args := [("index")],
    insert_args := [("date")],
    indexes := fun n => n,
    hookImplemented := true,
    aggregateFn := fun _ _ =>
      { indexNames := [("District")], columns := [("n")],
        rows := [{ key := [("1")], vals := [some ("5")] }] } }

/-- The grouped result `runStep engineC4 true` assembles: one group, keyed
A, holding the same index key twice (once per delta). -/
def groupsC4 : List (String × DF) :=
  [(("A"),
    { indexNames := [("District"), ("date")], columns := [("n")],
      rows := [{ key := [("1"), ("d1")], vals := [some ("5")] },
               { key := [("1"), ("d1")], vals := [some ("5")] }] })]

/-- A one-row left table carrying the columns the group's index levels
name. -/
def leftC4 : DF :=
  { indexNames := [("i")], columns := [("District"), ("date")],
    rows := [{ key := [("0")], vals := [some ("1"), some ("d1")] }] }

/-- A result mapping whose single group has pairwise distinct keys. -/
def resC4W : List (String × DF) :=
  [(("A"),
    { indexNames := [("District"), ("date")], columns := [("n")],
      rows := [{ key := [("1"), ("d1")], vals := [some ("5")] },
               { key := [("2"), ("d1")], vals := [some ("7")] }] })]

/-- A row of the model frame `y`: column name to value, `none` for NaN;
the float scores and outcomes of the source are modelled as integers (the
claims about `y_subset` do not involve float arithmetic). -/
abbrev YRow := List (String × Option Int)

/-- `y[c]` for one row. -/
def colVal (r : YRow) (c : String) : Option Int :=
  match alookup c r with
  | some v => v
  | none => none

/-- Python `int()` applied to a rational: truncation toward zero. -/
def pyTrunc (q : ℚ) : Int := if 0 ≤ q then q.floor else -((-q).floor)

/-- Insertion step of a sort by a boolean comparison. -/
def insertSorted (le : YRow → YRow → Bool) (x : YRow) :
    List YRow → List YRow
  | [] => [x]
  | y :: ys => if le x y then x :: y :: ys else y :: insertSorted le x ys

/-- `y.sort_values(score, ascending=...)`: the external pandas sort,
modelled as an insertion sort by the score column (its exact tie order is
irrelevant to the claims; pandas' default quicksort fixes none either). -/
def sortValues (le : YRow → YRow → Bool) (l : List YRow) : List YRow :=
  l.foldr (insertSorted le) []

/-- The comparison `sort_values(score, ascending=ascending)` orders by:
rows with a NaN score go last. -/
def scoreLE (ascending : Bool) (score : String) (a b : YRow) : Bool :=
  match colVal a score, colVal b score with
  | none, none => true
  | none, some _ => false
  | some _, none => true
  | some x, some y => if ascending then decide (x ≤ y) else decide (y ≤ x)

/-- `model.y_subset` (src/model.py lines 178-206): filter by the optional
query (a pandas query string, modelled as a row predicate), optionally
drop rows with a missing outcome, resolve the top-N count from `k` or `p`
(raising `ValueError` when both are given, and for an unknown `p_of`),
then sort by score and keep the head.  A count derived from a negative
`p` is clamped at zero (`pandas.head` semantics for negative counts are
outside the claimed behaviour). -/
def y_subset (y : List YRow) (query : Option (YRow → Bool)) (dropna : Bool)
    (outcome : String) (k : Option Nat) (p : Option ℚ) (ascending : Bool)
    (score : String) (p_of : String) : Except PyErr (List YRow) :=
  let y1 := match query with
    | some q => y.filter q
    | none => y
  let y2 := if dropna then y1.filter (fun r => (colVal r outcome).isSome) else y1
  let kRes : Except PyErr (Option Nat) :=
    match k, p with
    | some _, some _ => .error (.valueError ("Cannot specify both k and p"))
    | some kv, none => .ok (some kv)
    | none, some pv =>
      if p_of = "notnull" then
        .ok (some (pyTrunc (pv *
          ((y2.filter (fun r => (colVal r outcome).isSome)).length : ℚ))).toNat)
      else if p_of = "true" then
        .ok (some (pyTrunc (pv *
          (((y2.filterMap (fun r => colVal r outcome)).sum : Int) : ℚ))).toNat)
      else if p_of = "all" then
        .ok (some (pyTrunc (pv * (y2.length : ℚ))).toNat)
      else
        .error (.valueError ("Invalid value for p_of: " ++ p_of))
    | none, none => .ok none
  match kRes with
  | .error e => .error e
  | .ok none => .ok y2
  | .ok (some kv) => .ok ((sortValues (scoreLE ascending score) y2).take kv)

-- ## Theorems

theorem spacetimeArguments_eq_product (dates : List String)
    (spacedeltas : List (String × String × List String)) :
    spacetimeArguments dates spacedeltas
      = (spacetimeProductSpace dates spacedeltas).map
          (fun t => [("date", t.1), ("delta", t.2.2), ("index", t.2.1)]) := by
  simp only [spacetimeArguments, spacetimeProductSpace, List.map_flatMap,
    List.map_map, List.flatMap_map]
  rfl

theorem spacetimeArguments_length (dates : List String)
    (spacedeltas : List (String × String × List String)) :
    (spacetimeArguments dates spacedeltas).length
      = (spacedeltas.map (fun nd => dates.length * nd.2.2.length)).sum := by
  have h2 : (spacedeltas.map (fun nd => dates.length * nd.2.2.length)).sum
      = dates.length * (spacedeltas.map (fun nd => nd.2.2.length)).sum := by
    induction spacedeltas with
    | nil => simp
    | cons nd rest ih => simp [ih, Nat.mul_add]
  have h1 : ∀ date : String, ((spacedeltas.flatMap (fun nd =>
      nd.2.2.map (fun delta =>
        ([("date", date), ("delta", delta), ("index", nd.1)] : Arg)))).length)
        = (spacedeltas.map (fun nd => nd.2.2.length)).sum := by
    intro date
    clear h2
    induction spacedeltas with
    | nil => simp
    | cons nd rest ih => simp [List.flatMap_cons, ih]
  rw [spacetimeArguments, List.length_flatMap, h2]
  simp only [Function.comp_def, h1]
  induction dates with
  | nil => simp
  | cons d ds ih => simp [ih, Nat.succ_mul, Nat.add_comm]

theorem mem_spacetimeArguments (dates : List String)
    (spacedeltas : List (String × String × List String)) (u : Arg) :
    u ∈ spacetimeArguments dates spacedeltas ↔
      ∃ date ∈ dates, ∃ nd ∈ spacedeltas, ∃ delta ∈ nd.2.2,
        u = [("date", date), ("delta", delta), ("index", nd.1)] := by
  simp only [spacetimeArguments, List.mem_flatMap, List.mem_map]
  constructor
  · rintro ⟨d, hd, nd, hnd, δ, hδ, rfl⟩
    exact ⟨d, hd, nd, hnd, δ, hδ, rfl⟩
  · rintro ⟨d, hd, nd, hnd, δ, hδ, rfl⟩
    exact ⟨d, hd, nd, hnd, δ, hδ, rfl⟩

/-- C2: the argument space.  `SpacetimeAggregation.arguments` enumerates
exactly the set `{(date, name, delta)}` as the cartesian product of the
dates with the declared (name, delta) pairs, date outermost, then
spacedelta name, then delta; its length is the sum over spacedelta names
of `len(dates) * len(deltas(name))`; and `SimpleAggregation.arguments` is
one unit per index name, carrying exactly that name in its `index` field. -/
theorem claim_c2_argument_space (dates : List String)
    (spacedeltas : List (String × String × List String))
    (indexes : List String) :
    (spacetimeArguments dates spacedeltas
        = (spacetimeProductSpace dates spacedeltas).map
            (fun t => [("date", t.1), ("delta", t.2.2), ("index", t.2.1)]))
    ∧ (∀ u : Arg, u ∈ spacetimeArguments dates spacedeltas ↔
        ∃ date ∈ dates, ∃ nd ∈ spacedeltas, ∃ delta ∈ nd.2.2,
          u = [("date", date), ("delta", delta), ("index", nd.1)])
    ∧ ((spacetimeArguments dates spacedeltas).length
        = (spacedeltas.map (fun nd => dates.length * nd.2.2.length)).sum)
    ∧ ((simpleArguments indexes).length = indexes.length)
    ∧ (∀ i : Fin indexes.length,
        (simpleArguments indexes).get ⟨i, by simp [simpleArguments]⟩
          = [("index", indexes.get i)]) := by
  refine ⟨spacetimeArguments_eq_product dates spacedeltas,
    mem_spacetimeArguments dates spacedeltas,
    spacetimeArguments_length dates spacedeltas, by simp [simpleArguments], ?_⟩
  intro i
  simp [simpleArguments]

theorem alookup_eq_none_of_keys_lt (gid : Nat) (cache : List (Nat × Aggregator))
    (h : ∀ p ∈ cache, p.1 < gid) : alookup gid cache = none := by
  induction cache with
  | nil => rfl
  | cons p rest ih =>
    have hp := h p (List.mem_cons_self p rest)
    have hne : ¬ (p.1 = gid) := by omega
    simp only [alookup, hne, if_false]
    exact ih (fun q hq => h q (List.mem_cons_of_mem _ hq))

/-- On any state whose stored keys are the identities of earlier calls, the
membership test of `_get_aggregator` misses and a new aggregator is built
and stored: the dict lookup probes with a fresh generator object. -/
theorem getAggregatorMemo_always_constructs (e : Engine) (st : CacheState)
    (arg : Arg) (hinv : ∀ p ∈ st.cache, p.1 < st.genCounter)
    (himpl : e.hookImplemented = true) :
    getAggregatorMemo e st arg
      = .ok ({ serial := st.genCounter,
               builtFrom := dict_subset arg e.aggregator_args },
             { cache := st.cache ++ [(st.genCounter,
                 { serial := st.genCounter,
                   builtFrom := dict_subset arg e.aggregator_args })],
               genCounter := st.genCounter + 1 }) := by
  simp only [getAggregatorMemo]
  rw [alookup_eq_none_of_keys_lt st.genCounter st.cache hinv]
  simp [himpl]

/-- Consequence of the generator-keyed cache: the unit loop constructs one
aggregator per unit, regardless of how many distinct aggregator-args
projections the units have. -/
theorem runUnits_one_construction_per_unit (e : Engine)
    (himpl : e.hookImplemented = true) :
    ∀ (args : List Arg) (st : CacheState),
      (∀ p ∈ st.cache, p.1 < st.genCounter) →
      ∃ dfs st1, runUnits e args st = .ok (dfs, st1)
        ∧ st1.cache.length = st.cache.length + args.length := by
  intro args
  induction args with
  | nil =>
    intro st _
    exact ⟨[], st, rfl, by simp⟩
  | cons a rest ih =>
    intro st hinv
    have hga := getAggregatorMemo_always_constructs e st a hinv himpl
    have hinv1 : ∀ p ∈ st.cache ++ [(st.genCounter,
        ({ serial := st.genCounter,
           builtFrom := dict_subset a e.aggregator_args } : Aggregator))],
        p.1 < st.genCounter + 1 := by
      intro p hp
      rcases List.mem_append.mp hp with h | h
      · have := hinv p h; omega
      · simp only [List.mem_singleton] at h
        subst h
        exact Nat.lt_succ_self st.genCounter
    obtain ⟨dfs, st1, hrun, hlen⟩ := ih
      { cache := st.cache ++ [(st.genCounter,
          { serial := st.genCounter,
            builtFrom := dict_subset a e.aggregator_args })],
        genCounter := st.genCounter + 1 } hinv1
    refine ⟨(applyInsert e.insert_args a (e.aggregateFn
        (dict_subset a e.aggregator_args)
        (e.indexes (argGet a ("index"))))) :: dfs, st1, ?_, ?_⟩
    · simp only [runUnits, runUnit, Bind.bind, Except.bind, hga, hrun]
    · simp only [hlen, List.length_append, List.length_cons]
      simp
      omega

/-- C1, evaluated at the failing input: on `engineC1` the two
`_get_aggregator` calls have identical (empty) aggregator_args projections,
yet the run constructs TWO aggregators — the cache ends with two entries,
serials 0 and 1, both built from the same projection, stored under the two
distinct generator identities — although there is exactly one distinct
projection.  The second call returned the freshly built handle with serial
1, not the stored handle with serial 0: the memoization of
`_get_aggregator` never hits, because `args_tuple` is a generator
expression (hashed by object identity), not a tuple of values. -/
theorem claim_c1_cache_never_hits :
    cacheOf engineC1
        = some [(0, { serial := 0, builtFrom := [] }),
                (1, { serial := 1, builtFrom := [] })]
      ∧ constructionsOf engineC1 = some 2
      ∧ distinctAggTuples engineC1 = 1 := by
  refine ⟨rfl, rfl, ?_⟩
  decide

/-- C8: calling the aggregator-construction hook on an instance that has not
overridden it makes the whole run fail with `NotImplementedError`: nothing
in `run` catches or retries it, and the failed run yields no output at all
(the `.error` result carries no partial frames), for the grouped and the
ungrouped path alike. -/
theorem claim_c8_unimplemented_hook_fatal (e : Engine)
    (hhook : e.hookImplemented = false) (hne : e.arguments ≠ []) :
    runStep e true = .error .notImplementedError
      ∧ runStep e false = .error .notImplementedError := by
  obtain ⟨a, rest, harg⟩ := List.exists_cons_of_ne_nil hne
  have h1 : getAggregatorMemo e initCache a = .error .notImplementedError := by
    simp [getAggregatorMemo, initCache, alookup, hhook]
  have h2 : runUnits e e.arguments initCache = .error .notImplementedError := by
    rw [harg]
    simp only [runUnits, runUnit, Bind.bind, Except.bind, h1]
  constructor <;> simp only [runStep, Bind.bind, Except.bind, h2]

theorem claim_c8_witness :
    runStep engineC8 true = .error .notImplementedError
      ∧ runStep engineC8 false = .error .notImplementedError :=
  claim_c8_unimplemented_hook_fatal engineC8 rfl (by decide)

theorem alookup_insertBucket (acc : List (String × List DF)) (kIns k : String)
    (d : DF) :
    alookup k (insertBucket acc kIns d)
      = if kIns = k then some ((alookup k acc).getD [] ++ [d])
        else alookup k acc := by
  induction acc with
  | nil =>
    simp only [insertBucket, alookup]
    split_ifs <;> simp_all [alookup]
  | cons p rest ih =>
    obtain ⟨k1, ds⟩ := p
    simp only [insertBucket]
    by_cases h1 : k1 = kIns
    · subst h1
      by_cases h2 : k1 = k
      · subst h2; simp [alookup]
      · simp [alookup, h2]
    · by_cases h2 : k1 = k
      · subst h2
        have : ¬ (kIns = k1) := fun h => h1 h.symm
        simp [alookup, this, h1]
      · simp [alookup, h1, h2, ih]

theorem selectKey_cons (k k1 : String) (d : DF) (rest : List (String × DF)) :
    selectKey k ((k1, d) :: rest)
      = if k1 = k then d :: selectKey k rest else selectKey k rest := by
  simp only [selectKey, List.filterMap_cons]
  split_ifs <;> rfl

theorem alookup_buildBuckets_from (pairs : List (String × DF)) :
    ∀ (acc : List (String × List DF)) (k : String),
      alookup k (pairs.foldl (fun acc p => insertBucket acc p.1 p.2) acc)
        = if selectKey k pairs = [] then alookup k acc
          else some ((alookup k acc).getD [] ++ selectKey k pairs) := by
  induction pairs with
  | nil => intro acc k; simp [selectKey]
  | cons p rest ih =>
    intro acc k
    obtain ⟨k1, d⟩ := p
    simp only [List.foldl_cons]
    rw [ih (insertBucket acc k1 d) k, selectKey_cons]
    by_cases h1 : k1 = k
    · subst h1
      simp only [if_pos rfl, alookup_insertBucket, if_pos rfl]
      by_cases h2 : selectKey k1 rest = []
      · simp [h2]
      · simp [h2, List.append_assoc]
    · simp only [if_neg h1, alookup_insertBucket, if_neg h1]

/-- The bucket of key `k` holds exactly the frames of the units whose
concat key is `k`, in unit order. -/
theorem alookup_buildBuckets (pairs : List (String × DF)) (k : String) :
    alookup k (buildBuckets pairs)
      = if selectKey k pairs = [] then none else some (selectKey k pairs) := by
  rw [buildBuckets, alookup_buildBuckets_from pairs [] k]
  rfl

theorem selectKey_eq_nil_iff (k : String) (pairs : List (String × DF)) :
    selectKey k pairs = [] ↔ k ∉ pairs.map Prod.fst := by
  induction pairs with
  | nil => simp [selectKey]
  | cons p rest ih =>
    obtain ⟨k1, d⟩ := p
    rw [selectKey_cons, List.map_cons, List.mem_cons]
    by_cases h : k1 = k
    · subst h; simp
    · have hne : ¬ (k = k1) := fun hh => h hh.symm
      rw [if_neg h, ih]
      simp [hne]

theorem insertBucket_keys (acc : List (String × List DF)) (kIns : String)
    (d : DF) :
    (insertBucket acc kIns d).map Prod.fst
      = if kIns ∈ acc.map Prod.fst then acc.map Prod.fst
        else acc.map Prod.fst ++ [kIns] := by
  induction acc with
  | nil => simp [insertBucket]
  | cons p rest ih =>
    obtain ⟨k1, ds⟩ := p
    simp only [insertBucket]
    by_cases h : k1 = kIns
    · subst h; simp
    · have hne : ¬ (kIns = k1) := fun hh => h hh.symm
      rw [if_neg h]
      simp only [List.map_cons, ih]
      by_cases hm : kIns ∈ rest.map Prod.fst
      · rw [if_pos hm, if_pos (List.mem_cons_of_mem _ hm)]
      · have hnotc : kIns ∉ k1 :: rest.map Prod.fst := by
          rw [List.mem_cons]
          push_neg
          exact ⟨hne, hm⟩
        rw [if_neg hm, if_neg hnotc]
        simp

theorem buildBuckets_keys_nodup (pairs : List (String × DF)) :
    ∀ acc : List (String × List DF), (acc.map Prod.fst).Nodup →
      ((pairs.foldl (fun acc p => insertBucket acc p.1 p.2) acc).map
        Prod.fst).Nodup := by
  induction pairs with
  | nil => intro acc h; simpa using h
  | cons p rest ih =>
    intro acc h
    simp only [List.foldl_cons]
    refine ih (insertBucket acc p.1 p.2) ?_
    rw [insertBucket_keys]
    split_ifs with hmem
    · exact h
    · rw [← List.concat_eq_append]
      exact List.Nodup.concat hmem h

/-- C3: in a non-partitioned run with `concat` enabled, `run` partitions the
per-unit partial frames by ConcatKey (`concat_args_prefix`) and stacks each
bucket with `pd.concat`: the result maps each occurring key to the stack of
exactly the frames of the units carrying that key, in unit order — so two
units with equal ConcatKey always land in the same result group, and since
the group keys are pairwise distinct and a unit's frame is placed only in
the bucket of its own key, units with differing ConcatKeys never share
one. -/
theorem claim_c3_concat_grouping (e : Engine) (dfs : List DF) (st : CacheState)
    (hu : runUnits e e.arguments initCache = .ok (dfs, st)) :
    (runStep e true = .ok (.inl
        ((buildBuckets ((e.arguments.map (concatKeyOf e.concat_args)).zip dfs)).map
          (fun p => (p.1, pdConcat p.2)))))
    ∧ (∀ k ds,
        alookup k (buildBuckets ((e.arguments.map (concatKeyOf e.concat_args)).zip dfs))
            = some ds
          → ds = selectKey k ((e.arguments.map (concatKeyOf e.concat_args)).zip dfs))
    ∧ (∀ k,
        (alookup k (buildBuckets ((e.arguments.map (concatKeyOf e.concat_args)).zip dfs))).isSome
          ↔ k ∈ ((e.arguments.map (concatKeyOf e.concat_args)).zip dfs).map Prod.fst)
    ∧ (((buildBuckets ((e.arguments.map (concatKeyOf e.concat_args)).zip dfs)).map
          Prod.fst).Nodup) := by
  refine ⟨?_, ?_, ?_, ?_⟩
  · simp only [runStep, Bind.bind, Except.bind, hu, if_true]
  · intro k ds hds
    rw [alookup_buildBuckets] at hds
    by_cases h : selectKey k ((e.arguments.map (concatKeyOf e.concat_args)).zip dfs) = []
    · rw [if_pos h] at hds; cases hds
    · rw [if_neg h] at hds; exact (Option.some_inj.mp hds).symm
  · intro k
    rw [alookup_buildBuckets]
    by_cases h : selectKey k ((e.arguments.map (concatKeyOf e.concat_args)).zip dfs) = []
    · simp [h, (selectKey_eq_nil_iff _ _).mp h]
    · simp only [if_neg h, Option.isSome_some, true_iff]
      by_contra hk
      exact h ((selectKey_eq_nil_iff _ _).mpr hk)
  · exact buildBuckets_keys_nodup _ [] (by simp)

theorem claim_c3_witness :
    runStep engineC3 true = .ok (.inl
      ((buildBuckets ((engineC3.arguments.map (concatKeyOf engineC3.concat_args)).zip
          (dfsOf engineC3))).map (fun p => (p.1, pdConcat p.2)))) :=
  (claim_c3_concat_grouping engineC3 (dfsOf engineC3) (stOf engineC3) rfl).1

/-- C6: for every unit the loop processes, the fields named in
`insert_args` are appended to the unit's partial frame as additional index
levels carrying the unit's values for those fields — a stable append after
the existing levels, in `insert_args` order, that reorders neither the
existing index levels nor the columns nor any cell values; and the concat
key that splits result groups is a function of the `concat_args`
projection alone, so the inserted fields never split result groups. -/
theorem claim_c6_insert_args_levels (e : Engine) (st : CacheState) (arg : Arg)
    (df1 : DF) (st1 : CacheState)
    (hinv : ∀ p ∈ st.cache, p.1 < st.genCounter)
    (h : runUnit e st arg = .ok (df1, st1)) :
    (df1.indexNames
        = (e.aggregateFn (dict_subset arg e.aggregator_args)
            (e.indexes (argGet arg ("index")))).indexNames ++ e.insert_args)
    ∧ (df1.columns
        = (e.aggregateFn (dict_subset arg e.aggregator_args)
            (e.indexes (argGet arg ("index")))).columns)
    ∧ (df1.rows
        = (e.aggregateFn (dict_subset arg e.aggregator_args)
            (e.indexes (argGet arg ("index")))).rows.map (fun r =>
          { r with key := r.key ++ e.insert_args.map (fun k => argGet arg k) }))
    ∧ (∀ a b : Arg, dict_subset a e.concat_args = dict_subset b e.concat_args →
        concatKeyOf e.concat_args a = concatKeyOf e.concat_args b) := by
  cases himpl : e.hookImplemented
  · exfalso
    rw [runUnit] at h
    rw [getAggregatorMemo] at h
    rw [alookup_eq_none_of_keys_lt st.genCounter st.cache hinv] at h
    rw [himpl] at h
    simp [Bind.bind, Except.bind] at h
  · have hga := getAggregatorMemo_always_constructs e st arg hinv himpl
    rw [runUnit] at h
    rw [hga] at h
    simp only [Bind.bind, Except.bind, Except.ok.injEq, Prod.mk.injEq] at h
    obtain ⟨hdf, -⟩ := h
    subst hdf
    refine ⟨by simp [applyInsert], by simp [applyInsert], by simp [applyInsert], ?_⟩
    intro a b hab
    have hvals := congrArg (List.map Prod.snd) hab
    simp only [dict_subset, List.map_map, Function.comp_def] at hvals
    simp only [concatKeyOf, hvals]

theorem claim_c6_witness :
    (runUnitDF engineC3 initCache argC6).indexNames
      = (engineC3.aggregateFn (dict_subset argC6 engineC3.aggregator_args)
          (engineC3.indexes (argGet argC6 ("index")))).indexNames
        ++ engineC3.insert_args :=
  (claim_c6_insert_args_levels engineC3 initCache argC6
    (runUnitDF engineC3 initCache argC6) (runUnitSt engineC3 initCache argC6)
    (by intro p hp; simp [initCache] at hp) rfl).1

/-- C7: requesting partitioning (`parallel=True`) makes the constructor
build one independent, non-parallel sub-instance of the same concrete
class per partition-key value — one per date for `SpacetimeAggregation`,
one per singleton index for `SimpleAggregation` — each configured with the
narrowed argument space of its descriptor, sharing the same upstream
inputs, and each initialized with its own fresh, empty private aggregator
cache; and the runtime executes each partition on its own engine alone, so
one partition's run reads and writes no other partition's cache. -/
theorem claim_c7_parallel_construction (inputs : List Nat)
    (spacedeltas : List (String × String × List String))
    (dates : List String) (concat : Bool) :
    ((mkSpacetime inputs spacedeltas dates true concat).2.length = dates.length)
    ∧ (∀ i : Fin dates.length,
        (mkSpacetime inputs spacedeltas dates true concat).2.get
            ⟨i, by simp [mkSpacetime, spacetimeParallelKwargs]⟩
          = { inputs := inputs, spacedeltas := spacedeltas,
              dates := [dates.get i], parallel := false, concat := concat,
              cache := initCache })
    ∧ (∀ idxs : List String,
        (mkSimple inputs idxs true concat).2
          = idxs.map (fun ix =>
              { inputs := inputs, indexes := [ix], parallel := false,
                concat := concat, cache := initCache }))
    ∧ (∀ (es : List Engine) (i : Fin es.length),
        (runPartitions es).get ⟨i, by simp [runPartitions]⟩
          = runUnits (es.get i) (es.get i).arguments initCache) := by
  refine ⟨?_, ?_, ?_, ?_⟩
  · simp [mkSpacetime, spacetimeParallelKwargs]
  · intro i
    simp [mkSpacetime, spacetimeParallelKwargs]
  · intro idxs
    simp [mkSimple, simpleParallelKwargs, List.map_map, Function.comp_def]
  · intro es i
    simp [runPartitions]

theorem alookup_isSome_iff_mem [DecidableEq κ] (k : κ)
    (l : List (κ × α)) : (alookup k l).isSome ↔ k ∈ l.map Prod.fst := by
  induction l with
  | nil => simp [alookup]
  | cons p rest ih =>
    by_cases h : p.1 = k
    · subst h; simp [alookup]
    · have hne : ¬ (k = p.1) := fun hh => h hh.symm
      simp [alookup, h, hne, ih]

theorem mergeNoOverlap_ok_iff (m acc : List (String × DF))
    (h : (acc.map Prod.fst).Nodup) :
    (mergeNoOverlap acc m = .ok (acc ++ m)
        ∨ ∃ msg, mergeNoOverlap acc m = .error (.configurationError msg))
    ∧ (((acc ++ m).map Prod.fst).Nodup ↔ mergeNoOverlap acc m = .ok (acc ++ m)) := by
  induction m generalizing acc with
  | nil => simp [mergeNoOverlap, h]
  | cons p rest ih =>
    obtain ⟨k, df⟩ := p
    by_cases hk : (alookup k acc).isSome
    · have hkmem : k ∈ acc.map Prod.fst := (alookup_isSome_iff_mem k acc).mp hk
      constructor
      · right
        exact ⟨"overlapping ConcatKey: " ++ k, by simp [mergeNoOverlap, hk]⟩
      · constructor
        · intro hnd
          exfalso
          rw [List.map_append, List.nodup_append] at hnd
          exact hnd.2.2 hkmem (by simp)
        · intro hok
          simp [mergeNoOverlap, hk] at hok
    · have hknot : k ∉ acc.map Prod.fst := by
        intro hmem
        exact hk ((alookup_isSome_iff_mem k acc).mpr hmem)
      have hacc1 : ((acc ++ [(k, df)]).map Prod.fst).Nodup := by
        rw [List.map_append]
        simp only [List.map_cons, List.map_nil]
        rw [← List.concat_eq_append]
        exact List.Nodup.concat (by simpa using hknot) h
      have := ih (acc ++ [(k, df)]) hacc1
      have hassoc : acc ++ (k, df) :: rest = (acc ++ [(k, df)]) ++ rest := by
        simp
      constructor
      · rcases this.1 with h1 | ⟨msg, h1⟩
        · left
          rw [hassoc]
          simpa [mergeNoOverlap, hk] using h1
        · right
          exact ⟨msg, by simpa [mergeNoOverlap, hk] using h1⟩
      · rw [hassoc]
        simpa [mergeNoOverlap, hk] using this.2

theorem faninConcat_from (results : List (List (String × DF))) :
    ∀ acc : List (String × DF), (acc.map Prod.fst).Nodup →
      (results.foldlM (fun acc m => mergeNoOverlap acc m) acc
          = .ok (acc ++ results.flatten)
        ∨ ∃ msg, results.foldlM (fun acc m => mergeNoOverlap acc m) acc
          = .error (.configurationError msg))
      ∧ (((acc ++ results.flatten).map Prod.fst).Nodup ↔
          results.foldlM (fun acc m => mergeNoOverlap acc m) acc
            = .ok (acc ++ results.flatten)) := by
  induction results with
  | nil =>
    intro acc h
    have e1 : (([] : List (List (String × DF))).foldlM
        (fun acc m => mergeNoOverlap acc m) acc) = .ok acc := rfl
    rw [e1]
    constructor
    · left; simp
    · simp [h]
  | cons m rest ih =>
    intro acc h
    have hm := mergeNoOverlap_ok_iff m acc h
    have hassoc : acc ++ (m :: rest).flatten = (acc ++ m) ++ rest.flatten := by
      simp
    by_cases hnd : ((acc ++ m).map Prod.fst).Nodup
    · have hok : mergeNoOverlap acc m = .ok (acc ++ m) := hm.2.mp hnd
      have := ih (acc ++ m) hnd
      constructor
      · rcases this.1 with h1 | ⟨msg, h1⟩
        · left
          rw [hassoc]
          simpa [List.foldlM, Bind.bind, Except.bind, hok] using h1
        · right
          exact ⟨msg, by simpa [List.foldlM, Bind.bind, Except.bind, hok] using h1⟩
      · rw [hassoc]
        simp only [List.foldlM, Bind.bind, Except.bind, hok]
        exact this.2
    · have herr : ∃ msg, mergeNoOverlap acc m = .error (.configurationError msg) := by
        rcases hm.1 with h1 | h1
        · exact absurd (hm.2.mpr h1) hnd
        · exact h1
      obtain ⟨msg, hmsg⟩ := herr
      constructor
      · right
        exact ⟨msg, by simp [List.foldlM, Bind.bind, Except.bind, hmsg]⟩
      · constructor
        · intro hnd2
          exfalso
          apply hnd
          rw [hassoc, List.map_append] at hnd2
          exact (List.nodup_append.mp hnd2).1
        · intro hok
          rw [List.foldlM] at hok
          simp [Bind.bind, Except.bind, hmsg] at hok

/-- C5: with grouping enabled, the fan-in merges the partitioned
sub-instances' result mappings by key union (sub-instance order, then key
order within each), and any ConcatKey occurring in two sub-instances makes
the merge fail with a configuration error instead of silently overwriting
either entry: the merge succeeds exactly when the keys are globally
distinct. -/
theorem claim_c5_fanin_key_union (results : List (List (String × DF))) :
    ((results.flatMap (fun m => m.map Prod.fst)).Nodup →
      faninConcat results = .ok results.flatten)
    ∧ (¬ (results.flatMap (fun m => m.map Prod.fst)).Nodup →
      ∃ msg, faninConcat results = .error (.configurationError msg)) := by
  have hkeys : (results.flatten.map Prod.fst)
      = results.flatMap (fun m => m.map Prod.fst) := by
    induction results with
    | nil => rfl
    | cons m rest ih => simp [List.flatMap_cons, ih]
  have hmain := faninConcat_from results [] (by simp)
  constructor
  · intro hnd
    have : ((([] : List (String × DF)) ++ results.flatten).map Prod.fst).Nodup := by
      simpa [hkeys] using hnd
    have hok := hmain.2.mp this
    simpa [faninConcat] using hok
  · intro hnd
    rcases hmain.1 with h1 | ⟨msg, h1⟩
    · exfalso
      apply hnd
      have := hmain.2.mpr h1
      simpa [hkeys] using this
    · exact ⟨msg, by simpa [faninConcat] using h1⟩

theorem filter_keyMatch_of_nodup (rs : List Row) (kv : List (Option String))
    (h : (rs.map Row.key).Nodup) :
    rs.filter (fun r => r.key.map Option.some = kv)
      = match rs.find? (fun r => r.key.map Option.some = kv) with
        | some r => [r]
        | none => [] := by
  induction rs with
  | nil => rfl
  | cons r rest ih =>
    by_cases hr : r.key.map Option.some = kv
    · have hrestnil : rest.filter (fun r => r.key.map Option.some = kv) = [] := by
        rw [List.filter_eq_nil_iff]
        intro r1 hr1
        simp only [decide_eq_true_eq]
        intro hkv
        have hmm : r.key.map Option.some = r1.key.map Option.some :=
          hr.trans hkv.symm
        have hkeyeq : r1.key = r.key :=
          (List.map_injective_iff.mpr (Option.some_injective _) hmm).symm
        have : r.key ∈ rest.map Row.key := hkeyeq ▸ List.mem_map_of_mem Row.key hr1
        exact (List.nodup_cons.mp h).1 this
      simp [List.filter_cons, List.find?_cons, hr, hrestnil]
    · have hfr : (decide (r.key.map Option.some = kv)) = false := by
        simp [hr]
      simp only [List.filter_cons, List.find?_cons, hfr, Bool.false_eq_true,
        if_false]
      exact ih (List.nodup_cons.mp h).2

theorem mergeLeft_eq_map (left right : DF)
    (h : (right.rows.map Row.key).Nodup) :
    mergeLeft left right
      = { indexNames := left.indexNames,
          columns := left.columns ++ right.columns,
          rows := left.rows.map (extendRow left.columns right) } := by
  have hpt : ∀ l : Row,
      (match right.rows.filter (fun r =>
          r.key.map Option.some
            = right.indexNames.map (fun n => rowCol left.columns l n)) with
        | [] => [{ l with vals := l.vals ++ right.columns.map (fun _ => none) }]
        | ms => ms.map (fun r => { l with vals := l.vals ++ r.vals }))
        = [extendRow left.columns right l] := by
    intro l
    rw [filter_keyMatch_of_nodup right.rows _ h]
    cases hf : right.rows.find? (fun r =>
        r.key.map Option.some
          = right.indexNames.map (fun n => rowCol left.columns l n)) with
    | none => simp [extendRow, hf]
    | some r => simp [extendRow, hf]
  simp only [mergeLeft]
  congr 1
  induction left.rows with
  | nil => rfl
  | cons l ls ih => rw [List.flatMap_cons, hpt l, List.map_cons, ih]; rfl

theorem joinLoop_spec (res : List (String × DF)) :
    ∀ left : DF, (∀ p ∈ res, ((p.2.rows.map Row.key).Nodup)) →
      joinLoop left res
        = ({ indexNames := left.indexNames,
             columns := joinCols left.columns res,
             rows := left.rows.map (joinExtend left.columns res) },
           res.map (fun p => (p.1, prefix_columns p.2 (p.1 ++ "_")))) := by
  induction res with
  | nil =>
    intro left h
    have he : joinExtend left.columns ([] : List (String × DF)) = fun l => l :=
      funext fun l => rfl
    simp [joinLoop, joinCols, he]
  | cons p rest ih =>
    intro left h
    obtain ⟨k, df⟩ := p
    have hdf1 : (((prefix_columns df (k ++ "_")).rows.map Row.key).Nodup) := by
      simpa [prefix_columns] using h (k, df) (List.mem_cons_self _ _)
    simp only [joinLoop]
    rw [mergeLeft_eq_map left (prefix_columns df (k ++ "_")) hdf1]
    rw [ih _ (fun q hq => h q (List.mem_cons_of_mem _ hq))]
    simp [joinCols, joinExtend, List.map_map, Function.comp_def]

/-- C4 (amended): provided every group frame in the assembled result has
pairwise distinct index-key tuples, `join(left)` returns the left table
extended with one block of `'<ConcatKey>_'`-prefixed columns per
ConcatKey, preserving the left table's index names, row count and row
order exactly: the i-th output row is the i-th left row extended, group by
group in mapping order, with the values of the right row whose key
matches, or with missing values for a group in which no key matches.
(Without the distinct-key proviso the left merge duplicates left rows —
see the counterexample — so the claim as stated fails.) -/
theorem claim_c4_join_preserves_left (left : DF) (res : List (String × DF))
    (h : ∀ p ∈ res, ((p.2.rows.map Row.key).Nodup)) :
    ((joinLoop left res).1.indexNames = left.indexNames)
    ∧ ((joinLoop left res).1.columns = joinCols left.columns res)
    ∧ ((joinLoop left res).1.rows
        = left.rows.map (joinExtend left.columns res))
    ∧ ((joinLoop left res).1.rows.length = left.rows.length) := by
  rw [joinLoop_spec res left h]
  exact ⟨rfl, rfl, rfl, by simp⟩

theorem claim_c4_witness :
    ((joinLoop leftC4 resC4W).1.rows.length = leftC4.rows.length)
      ∧ ((joinLoop leftC4 resC4W).1.rows
          = leftC4.rows.map (joinExtend leftC4.columns resC4W)) :=
  ⟨(claim_c4_join_preserves_left leftC4 resC4W (by decide)).2.2.2,
   (claim_c4_join_preserves_left leftC4 resC4W (by decide)).2.2.1⟩

/-- C4, counterexample to the claim as stated: `engineC4` is a
SpacetimeAggregation-style instance with `concat_args=['index']`; its
grouped run assembles `groupsC4`, whose single group holds the same index
key `(1, d1)` twice (once per delta).  Joining the one-row left table
`leftC4` against that assembled result yields TWO rows: pandas' left merge
pairs the left row with every matching right row, so the left table's row
count is not preserved. -/
theorem claim_c4_counterexample :
    (runStep engineC4 true = .ok (.inl groupsC4))
    ∧ ((joinLoop leftC4 groupsC4).1.rows.length = 2)
    ∧ (leftC4.rows.length = 1)
    ∧ ((joinLoop leftC4 groupsC4).1.rows.length ≠ leftC4.rows.length) := by
  refine ⟨rfl, rfl, rfl, by decide⟩

theorem joinLoop_snd (res : List (String × DF)) :
    ∀ left : DF, (joinLoop left res).2
      = res.map (fun p => (p.1, prefix_columns p.2 (p.1 ++ "_"))) := by
  induction res with
  | nil => intro left; rfl
  | cons p rest ih =>
    intro left
    obtain ⟨k, df⟩ := p
    simp only [joinLoop, List.map_cons]
    rw [ih]

/-- C10: `join` mutates the stored aggregation result in place: after one
call the result mapping holds, for each ConcatKey, the group's frame with
every column renamed by directly prepending `'<ConcatKey>_'` (so no
original column name survives: the renamed name is strictly longer), and a
second `join` call on the same instance prefixes the already-renamed
columns a second time. -/
theorem claim_c10_join_mutates_result (left left2 : DF)
    (res : List (String × DF)) :
    ((joinLoop left res).2
        = res.map (fun p => (p.1, prefix_columns p.2 (p.1 ++ "_"))))
    ∧ ((joinLoop left2 (joinLoop left res).2).2
        = res.map (fun p => (p.1,
            prefix_columns (prefix_columns p.2 (p.1 ++ "_")) (p.1 ++ "_"))))
    ∧ (∀ p ∈ res, ∀ c ∈ p.2.columns, ((p.1 ++ "_") ++ c) ≠ c) := by
  refine ⟨joinLoop_snd res left, ?_, ?_⟩
  · rw [joinLoop_snd res left, joinLoop_snd _ left2, List.map_map]
    rfl
  · intro p hp c hc heq
    have hlen := congrArg String.length heq
    rw [String.length_append, String.length_append] at hlen
    have : (("_") : String).length = 1 := rfl
    omega

/-- C9: specifying both the count (`k`) and the proportion (`p`) top-N
selection parameters makes `y_subset` fail with
`ValueError("Cannot specify both k and p")` — the configuration error the
spec's taxonomy prescribes — for every frame and every combination of the
other parameters, before any selection happens: it never silently picks
one of the two. -/
theorem claim_c9_k_and_p_conflict (y : List YRow)
    (query : Option (YRow → Bool)) (dropna : Bool) (outcome : String)
    (kv : Nat) (pv : ℚ) (ascending : Bool) (score : String) (p_of : String) :
    y_subset y query dropna outcome (some kv) (some pv) ascending score p_of
      = .error (.valueError ("Cannot specify both k and p")) := rfl

end Drain
